import Mathlib

/-!
Verification development for the chaindexing event-indexing pipeline.

The Rust source is shallowly embedded: strings are lists of characters
(`Str`), Rust `u64`/`i64` become `Nat`/`Int` with explicit casts, fallible
or panicking code returns `Except`/`Option`, and side-effecting store or
handler code is represented by explicit lists of operations.
-/

set_option maxRecDepth 20000

namespace Chaindexing

/-- Rust `&str`/`String`, embedded as a list of characters. -/
abbrev Str := List Char

/-- Convert a Lean string literal into the embedded representation. -/
def lit (s : String) : Str := s.data

/-- Rust `str::starts_with` for string patterns. -/
def startsWithStr (s pat : Str) : Bool := List.isPrefixOf pat s

/-- Auxiliary scanner for `splitOnStr`; `fuel` bounds recursion and is
always at least the length of the remaining input. -/
def splitOnGo (pat : Str) : Nat → Str → Str → List Str
  | _, [], cur => [cur.reverse]
  | 0, s, cur => [cur.reverse ++ s]
  | fuel + 1, c :: rest, cur =>
    if List.isPrefixOf pat (c :: rest) && !pat.isEmpty then
      cur.reverse :: splitOnGo pat fuel ((c :: rest).drop pat.length) []
    else
      splitOnGo pat fuel rest (c :: cur)

/-- Rust `str::split(pat)` for a non-empty string pattern: split at each
non-overlapping occurrence, scanning left to right, keeping empty pieces. -/
def splitOnStr (pat s : Str) : List Str := splitOnGo pat s.length s []

/-- Auxiliary scanner for `replaceStr`; same fuel discipline as `splitOnGo`. -/
def replaceGo (pat rep : Str) : Nat → Str → Str
  | _, [] => []
  | 0, s => s
  | fuel + 1, c :: rest =>
    if List.isPrefixOf pat (c :: rest) && !pat.isEmpty then
      rep ++ replaceGo pat rep fuel ((c :: rest).drop pat.length)
    else
      c :: replaceGo pat rep fuel rest

/-- Rust `str::replace(pat, rep)`: replace every non-overlapping occurrence,
scanning left to right. -/
def replaceStr (s pat rep : Str) : Str := replaceGo pat rep s.length s

/-- Rust `str::contains(pat)` (substring test). -/
def containsStr (s pat : Str) : Bool := (splitOnStr pat s).length > 1

/-- Rust `str::matches(pat).count()`: the number of non-overlapping
occurrences of `pat` in `s`. -/
def countMatches (s pat : Str) : Nat := (splitOnStr pat s).length - 1

/-- ASCII whitespace, as recognised by Rust `str::split_ascii_whitespace`. -/
def isWsp (c : Char) : Bool :=
  c == ' ' || c == '\t' || c == '\n' || c == '\r' || c == '\x0b' || c == '\x0c'

/-- Auxiliary scanner for `splitWhitespace`. -/
def splitWspGo : Str → Str → List Str
  | [], cur => if cur.isEmpty then [] else [cur.reverse]
  | c :: rest, cur =>
    if isWsp c then
      if cur.isEmpty then splitWspGo rest []
      else cur.reverse :: splitWspGo rest []
    else
      splitWspGo rest (c :: cur)

/-- Rust `str::split_ascii_whitespace`: maximal non-whitespace runs,
with no empty pieces. -/
def splitWhitespace (s : Str) : List Str := splitWspGo s []

/-- Rust `str::trim` (on the ASCII data the planner manipulates). -/
def trimStr (s : Str) : Str :=
  ((s.dropWhile (fun c => isWsp c)).reverse.dropWhile (fun c => isWsp c)).reverse

/-- Rust `str::to_lowercase` (ASCII is all the planner feeds it). -/
def toLowerStr (s : Str) : Str := s.map Char.toLower

/-- Rust `[String]::join(sep)`. -/
def joinSep (sep : Str) : List Str → Str
  | [] => []
  | [x] => x
  | x :: y :: rest => x ++ sep ++ joinSep sep (y :: rest)

/-! ## State-migration planner (src/chaindexing/src/contract_states/migrations.rs) -/

/-- Modelled from the spec: `STATE_VERSIONS_TABLE_PREFIX`, the constant that
names the shadow versions table, is declared in the `contract_states` module,
which is not under `src/`; the spec only names it abstractly. Any benign
identifier prefix works for the claims below; we fix one. -/
def stateVersionsTablePrefixStr : Str := lit "chaindexing_state_versions_for_"

/-- `DefaultMigration::get` (migrations.rs:175): the default column DDL
appended to every user CREATE TABLE, newlines and indentation as in the
source literal. -/
def defaultMigrationGet : Str :=
  lit "state_version_group_id UUID NOT NULL,\n        contract_address TEXT NOT NULL,\n        chain_id INTEGER NOT NULL,\n        block_hash TEXT NOT NULL,\n        block_number BIGINT NOT NULL,\n        transaction_hash TEXT NOT NULL,\n        transaction_index BIGINT NOT NULL,\n        log_index BIGINT NOT NULL)"

/-- `DefaultMigration::get_fields` (migrations.rs:187): the seven default
column names. -/
def defaultMigrationGetFields : List Str :=
  [lit "contract_address", lit "chain_id", lit "block_hash", lit "block_number",
   lit "transaction_hash", lit "transaction_index", lit "log_index"]

/-- `get_remaining_state_versions_migration` (migrations.rs:149). -/
def getRemainingStateVersionsMigration : Str :=
  lit "state_version_id BIGSERIAL PRIMARY KEY,\n        state_version_is_deleted BOOL NOT NULL default false,\n        "
    ++ defaultMigrationGet ++ lit "\n        "

/-- `get_remaining_state_views_migration` (migrations.rs:161). -/
def getRemainingStateViewsMigration : Str := defaultMigrationGet

/-- `append_migration` (migrations.rs:136): strip newlines from the user
migration, append a comma and the extra DDL, normalise whitespace, then fix
up the `),` seams. -/
def appendMigration (migration migrationToAppend : Str) : Str :=
  let m := replaceStr migration (lit "\n") []
  let m := m ++ lit "," ++ migrationToAppend
  let m := joinSep (lit " ") (splitWhitespace m)
  replaceStr (replaceStr (replaceStr m (lit "),") (lit ",")) (lit "),,") (lit ",")) (lit ", ,") (lit ",")

/-- `set_state_versions_table_name` (migrations.rs:165). -/
def setStateVersionsTableName (migration : Str) : Str :=
  replaceStr migration (lit "CREATE TABLE IF NOT EXISTS ")
    (lit "CREATE TABLE IF NOT EXISTS " ++ stateVersionsTablePrefixStr)

/-- `extract_table_name` (migrations.rs:83). -/
def extractTableName (migration : Str) : Str :=
  trimStr ((splitOnStr (lit "(") (replaceStr migration (lit "CREATE TABLE IF NOT EXISTS") [])).headD [])

/-- `extract_table_fields` (migrations.rs:94). The source unwraps the first
whitespace token of each comma piece; on the well-formed DDL the planner
builds, every piece has one, and an empty piece maps to the empty name. -/
def extractTableFields (migration : Str) : List Str :=
  (splitOnStr (lit ",") ((splitOnStr (lit "(") (replaceStr migration (lit ")") [])).getLastD [])).map
    (fun eachField => (splitWhitespace eachField).headD [])

/-- `get_unique_index_migration_for_state_versions` (migrations.rs:113). -/
def getUniqueIndexMigrationForStateVersions (tableName : Str) (tableFields : List Str) : Str :=
  let tableFields := tableFields.filter (fun f => !(f == lit "state_version_id"))
  let fieldsByComma := joinSep (lit ",") tableFields
  lit "CREATE UNIQUE INDEX IF NOT EXISTS unique_" ++ tableName ++ lit " ON "
    ++ tableName ++ lit "(" ++ fieldsByComma ++ lit ")"

/-- `validate_migration` (migrations.rs:126) panics exactly when the
lowercased migration contains one of these keywords; this predicate is true
iff it panics. -/
def migrationIsInvalid (migration : Str) : Bool :=
  [lit " timestamp", lit " timestampz", lit " date", lit " time"].any
    (fun keyword => containsStr (toLowerStr migration) keyword)

/-- Count lookup in the model of the `HashMap` of repeating-field counts. -/
def lookupCount (counts : List (Str × Nat)) (f : Str) : Nat :=
  ((counts.find? (fun p => p.1 == f)).map Prod.snd).getD 0

/-- Insert/overwrite in the model of the `HashMap` of repeating-field counts. -/
def updateCount (counts : List (Str × Nat)) (f : Str) (n : Nat) : List (Str × Nat) :=
  (f, n) :: counts.filter (fun p => !(p.1 == f))

/-- The token fold inside `DefaultMigration::remove_repeating_occurrences`
(migrations.rs:214): a comma token containing a repeating field (the first
such field, in field order) is kept only while that field's count is not
yet 1. -/
def rroGo (repeating : List Str) : List Str → List (Str × Nat) → List Str
  | [], _ => []
  | tok :: rest, counts =>
    match repeating.find? (fun f => containsStr tok f) with
    | some f =>
      let previousCount := lookupCount counts f
      if previousCount != 1 then
        tok :: rroGo repeating rest (updateCount counts f (previousCount + 1))
      else
        rroGo repeating rest counts
    | none => tok :: rroGo repeating rest counts

/-- The comma-token list `DefaultMigration::remove_repeating_occurrences`
keeps, before the final join (migrations.rs:214-233). -/
def removeRepeatingTokens (migration : Str) : List Str :=
  let repeating := defaultMigrationGetFields.filter (fun f => countMatches migration f > 1)
  rroGo repeating (splitOnStr (lit ",") migration) (repeating.map (fun f => (f, 0)))

/-- `DefaultMigration::remove_repeating_occurrences` (migrations.rs:199). -/
def removeRepeatingOccurrences (migration : Str) : Str :=
  joinSep (lit ",") (removeRepeatingTokens migration)

/-- The per-user-migration body of `ContractStateMigrations::get_migrations`
(migrations.rs:28-65), after validation has passed. -/
def processUserMigration (userMigration : Str) : List Str :=
  if startsWithStr userMigration (lit "CREATE TABLE IF NOT EXISTS") then
    let createStateViewsTableMigration :=
      removeRepeatingOccurrences (appendMigration userMigration getRemainingStateViewsMigration)
    let createStateVersionsTableMigration :=
      appendMigration userMigration getRemainingStateVersionsMigration
    let createStateVersionsTableMigration :=
      setStateVersionsTableName createStateVersionsTableMigration
    let createStateVersionsTableMigration :=
      removeRepeatingOccurrences createStateVersionsTableMigration
    let stateVersionsTableName := extractTableName createStateVersionsTableMigration
    let stateVersionsFields := extractTableFields createStateVersionsTableMigration
    let stateVersionsUniqueIndexMigration :=
      getUniqueIndexMigrationForStateVersions stateVersionsTableName stateVersionsFields
    [createStateViewsTableMigration, createStateVersionsTableMigration,
     stateVersionsUniqueIndexMigration]
  else
    [userMigration]

/-- `ContractStateMigrations::get_migrations` (migrations.rs:22): process the
user migrations in order; a `validate_migration` panic aborts the whole call
with no output, modelled as `Except.error` carrying the offending migration. -/
def getMigrations : List Str → Except Str (List Str)
  | [] => .ok []
  | m :: rest =>
    if migrationIsInvalid m then .error m
    else
      match getMigrations rest with
      | .ok out => .ok (processUserMigration m ++ out)
      | .error e => .error e

/-! ## Events and the reorg reconciler
    (src/chaindexing/src/events_ingester/ingested_events.rs) -/

/-- A persisted event record, per the `chaindexing_events` schema
(src/chaindexing/src/diesel/schema.rs): the surrogate `id` plus the payload
fields the reconciler and handler runner read. The JSON blobs
(`log_params`, `parameters`, `topics`) and `inserted_at` are irrelevant to
every claim and are elided. -/
structure Event where
  id : Nat
  contract_address : Str
  contract_name : Str
  abi : Str
  block_hash : Str
  block_number : Int
  transaction_hash : Str
  transaction_index : Int
  log_index : Int
  removed : Bool
deriving DecidableEq, Repr

/-- Modelled from the spec: `Event`'s `Eq`/`Hash` implementations live in
`events.rs`, which is not under `src/`. The spec fixes reorg-diff equality as
structural over the payload fields (including `block_hash`,
`transaction_hash`, `log_index`) and never the surrogate `id`. -/
def Event.structEq (a b : Event) : Bool :=
  a.contract_address == b.contract_address && a.contract_name == b.contract_name
    && a.abi == b.abi && a.block_hash == b.block_hash
    && a.block_number == b.block_number && a.transaction_hash == b.transaction_hash
    && a.transaction_index == b.transaction_index && a.log_index == b.log_index
    && a.removed == b.removed

/-- `HashSet<Event>::insert` under `Event.structEq`: keep one representative
per structural-equality class. -/
def hsInsert (s : List Event) (e : Event) : List Event :=
  if s.any (fun x => Event.structEq x e) then s else e :: s

/-- `Vec<Event>::into_iter().collect::<HashSet<_>>()`. -/
def hsOfList (l : List Event) : List Event := l.foldl hsInsert []

/-- `HashSet<Event>::contains` under `Event.structEq`. -/
def hsContains (s : List Event) (e : Event) : Bool :=
  s.any (fun x => Event.structEq x e)

/-- `MaybeBacktrackIngestedEvents::get_json_rpc_added_and_removed_events`
(ingested_events.rs:111): build hash sets of both lists, filter each list
against the other set, and return `None` when both differences are empty. -/
def getJsonRpcAddedAndRemovedEvents (alreadyIngestedEvents jsonRpcEvents : List Event) :
    Option (List Event × List Event) :=
  let alreadyIngestedEventsSet := hsOfList alreadyIngestedEvents
  let jsonRpcEventsSet := hsOfList jsonRpcEvents
  let addedEvents := jsonRpcEvents.filter (fun e => !hsContains alreadyIngestedEventsSet e)
  let removedEvents := alreadyIngestedEvents.filter (fun e => !hsContains jsonRpcEventsSet e)
  if addedEvents.isEmpty && removedEvents.isEmpty then none
  else some (addedEvents, removedEvents)

/-- The reorg diff as the spec words it (§4.C): `added = json_rpc_events \
already_ingested_events` and `removed = already_ingested_events \
json_rpc_events`, list-minus under structural event equality, `None` when
both are empty. Stated from the spec, to be compared with the source-derived
`getJsonRpcAddedAndRemovedEvents`. -/
def addedRemovedSpec (alreadyIngestedEvents jsonRpcEvents : List Event) :
    Option (List Event × List Event) :=
  let addedEvents :=
    jsonRpcEvents.filter (fun e => !alreadyIngestedEvents.any (fun x => Event.structEq x e))
  let removedEvents :=
    alreadyIngestedEvents.filter (fun e => !jsonRpcEvents.any (fun x => Event.structEq x e))
  if addedEvents.isEmpty && removedEvents.isEmpty then none
  else some (addedEvents, removedEvents)

/-- Rust `Iterator::min_by_key(|e| e.block_number)`: the last
minimal-by-block-number element, `None` on an empty iterator. -/
def minByBlockNumber (events : List Event) : Option Event :=
  events.foldl
    (fun acc e =>
      match acc with
      | none => some e
      | some m => if e.block_number ≤ m.block_number then some e else some m)
    none

/-- `MaybeBacktrackIngestedEvents::get_earliest_block_number`
(ingested_events.rs:138). The `(none, none)` arm is `unreachable!` in the
source; the model returns 0 there. -/
def getEarliestBlockNumber (addedEvents removedEvents : List Event) : Int :=
  match minByBlockNumber addedEvents, minByBlockNumber removedEvents with
  | none, some event => event.block_number
  | some event, none => event.block_number
  | some earliestAdded, some earliestRemoved =>
      min earliestAdded.block_number earliestRemoved.block_number
  | none, none => 0

/-- One write against the store issued by the reconciler's transaction. -/
inductive StoreWrite
  | createReorgedBlock (chainId : Int) (blockNumber : Int)
  | deleteEventsByIds (eventIds : List Nat)
  | createEvents (events : List Event)
deriving DecidableEq, Repr

/-- `MaybeBacktrackIngestedEvents::maybe_handle_chain_reorg`
(ingested_events.rs:79), with the store transaction reified as the list of
writes it issues: nothing at all when the diff is `None`, otherwise the
reorged-block marker, the deletions by surrogate id, and the insertions. -/
def maybeHandleChainReorg (chainId : Int) (alreadyIngestedEvents jsonRpcEvents : List Event) :
    List StoreWrite :=
  match getJsonRpcAddedAndRemovedEvents alreadyIngestedEvents jsonRpcEvents with
  | some (addedEvents, removedEvents) =>
    let earliestBlockNumber := getEarliestBlockNumber addedEvents removedEvents
    [StoreWrite.createReorgedBlock chainId earliestBlockNumber,
     StoreWrite.deleteEventsByIds (removedEvents.map Event.id),
     StoreWrite.createEvents addedEvents]
  | none => []

/-! ## Structural-equality and hash-set lemmas -/

lemma structEq_iff (a b : Event) :
    Event.structEq a b ↔
      a.contract_address = b.contract_address ∧ a.contract_name = b.contract_name
        ∧ a.abi = b.abi ∧ a.block_hash = b.block_hash
        ∧ a.block_number = b.block_number ∧ a.transaction_hash = b.transaction_hash
        ∧ a.transaction_index = b.transaction_index ∧ a.log_index = b.log_index
        ∧ a.removed = b.removed := by
  simp [Event.structEq, and_assoc]

lemma structEq_symm {a b : Event} (h : Event.structEq a b) : Event.structEq b a := by
  rw [structEq_iff] at h ⊢
  obtain ⟨h1, h2, h3, h4, h5, h6, h7, h8, h9⟩ := h
  exact ⟨h1.symm, h2.symm, h3.symm, h4.symm, h5.symm, h6.symm, h7.symm, h8.symm, h9.symm⟩

lemma structEq_trans {a b c : Event} (hab : Event.structEq a b) (hbc : Event.structEq b c) :
    Event.structEq a c := by
  rw [structEq_iff] at hab hbc ⊢
  obtain ⟨h1, h2, h3, h4, h5, h6, h7, h8, h9⟩ := hab
  obtain ⟨g1, g2, g3, g4, g5, g6, g7, g8, g9⟩ := hbc
  exact ⟨h1.trans g1, h2.trans g2, h3.trans g3, h4.trans g4, h5.trans g5,
    h6.trans g6, h7.trans g7, h8.trans g8, h9.trans g9⟩

lemma hsContains_insert (s : List Event) (x e : Event) :
    hsContains (hsInsert s x) e = (Event.structEq x e || hsContains s e) := by
  unfold hsInsert
  by_cases hmem : s.any (fun y => Event.structEq y x)
  · simp only [hmem, if_pos]
    by_cases hxe : Event.structEq x e
    · have : hsContains s e := by
        simp only [List.any_eq_true] at hmem
        obtain ⟨y, hy, hyx⟩ := hmem
        simp only [hsContains, List.any_eq_true]
        exact ⟨y, hy, structEq_trans hyx hxe⟩
      simp [hxe, this]
    · simp [hxe]
  · simp only [Bool.not_eq_true] at hmem
    simp [hmem, hsContains]

lemma hsContains_foldl (l : List Event) (s : List Event) (e : Event) :
    hsContains (l.foldl hsInsert s) e
      = (hsContains s e || l.any (fun x => Event.structEq x e)) := by
  induction l generalizing s with
  | nil => simp
  | cons x xs ih =>
    simp only [List.foldl_cons, List.any_cons, ih, hsContains_insert]
    cases Event.structEq x e <;> cases hsContains s e <;> simp

lemma hsContains_ofList (l : List Event) (e : Event) :
    hsContains (hsOfList l) e = l.any (fun x => Event.structEq x e) := by
  unfold hsOfList
  rw [hsContains_foldl]
  simp [hsContains]

/-! ## C1 -/

/-- C1: the reorg reconciler computes `added = json_rpc_events \
already_ingested_events` and `removed = already_ingested_events \
json_rpc_events` under structural event equality (never the surrogate id),
and when the two lists are equal as sets under that equality, both
differences are empty so the reconciler performs no store writes at all. -/
theorem reorg_diff_is_structural_difference_and_set_equal_is_noop
    (alreadyIngestedEvents jsonRpcEvents : List Event) :
    getJsonRpcAddedAndRemovedEvents alreadyIngestedEvents jsonRpcEvents
        = addedRemovedSpec alreadyIngestedEvents jsonRpcEvents
    ∧ ((∀ e ∈ alreadyIngestedEvents, ∃ x ∈ jsonRpcEvents, Event.structEq x e) →
       (∀ e ∈ jsonRpcEvents, ∃ x ∈ alreadyIngestedEvents, Event.structEq x e) →
       getJsonRpcAddedAndRemovedEvents alreadyIngestedEvents jsonRpcEvents = none
         ∧ ∀ chainId, maybeHandleChainReorg chainId alreadyIngestedEvents jsonRpcEvents = []) := by
  have hpredA : (fun e => !hsContains (hsOfList alreadyIngestedEvents) e)
      = fun e => !alreadyIngestedEvents.any (fun x => Event.structEq x e) := by
    funext e; rw [hsContains_ofList]
  have hpredJ : (fun e => !hsContains (hsOfList jsonRpcEvents) e)
      = fun e => !jsonRpcEvents.any (fun x => Event.structEq x e) := by
    funext e; rw [hsContains_ofList]
  have hrefine : getJsonRpcAddedAndRemovedEvents alreadyIngestedEvents jsonRpcEvents
      = addedRemovedSpec alreadyIngestedEvents jsonRpcEvents := by
    simp only [getJsonRpcAddedAndRemovedEvents, addedRemovedSpec]
    rw [hpredA, hpredJ]
  refine ⟨hrefine, fun hIngested hLive => ?_⟩
  have haddNil :
      jsonRpcEvents.filter
        (fun e => !alreadyIngestedEvents.any (fun x => Event.structEq x e)) = [] := by
    rw [List.filter_eq_nil_iff]
    intro e he hcontra
    obtain ⟨x, hx, hxe⟩ := hLive e he
    rw [Bool.not_eq_true', List.any_eq_false] at hcontra
    exact hcontra x hx hxe
  have hremNil :
      alreadyIngestedEvents.filter
        (fun e => !jsonRpcEvents.any (fun x => Event.structEq x e)) = [] := by
    rw [List.filter_eq_nil_iff]
    intro e he hcontra
    obtain ⟨x, hx, hxe⟩ := hIngested e he
    rw [Bool.not_eq_true', List.any_eq_false] at hcontra
    exact hcontra x hx hxe
  have hnone : getJsonRpcAddedAndRemovedEvents alreadyIngestedEvents jsonRpcEvents = none := by
    rw [hrefine]
    simp only [addedRemovedSpec, haddNil, hremNil]
    rfl
  exact ⟨hnone, fun chainId => by unfold maybeHandleChainReorg; rw [hnone]⟩

/-- Concrete witness for C1: singleton lists that differ only in the
surrogate id are equal as sets under structural equality, so the reconciler
issues no writes. -/
def c1EventStored : Event :=
  { id := 1, contract_address := lit "0xabc", contract_name := lit "NftContract",
    abi := lit "Transfer(address,address,uint256)", block_hash := lit "0xh110",
    block_number := 110, transaction_hash := lit "0xt1", transaction_index := 0,
    log_index := 3, removed := false }

def c1EventLive : Event := { c1EventStored with id := 42 }

theorem reorg_diff_is_structural_difference_and_set_equal_is_noop_witness :
    maybeHandleChainReorg 1 [c1EventStored] [c1EventLive] = [] :=
  ((reorg_diff_is_structural_difference_and_set_equal_is_noop
      [c1EventStored] [c1EventLive]).2 (by decide) (by decide)).2 1

/-! ## C2 -/

/-- The pure step of `minByBlockNumber` once an accumulator exists. -/
def minStep (acc e : Event) : Event :=
  if e.block_number ≤ acc.block_number then e else acc

lemma minByBlockNumber_cons (e : Event) (l : List Event) :
    minByBlockNumber (e :: l) = some (l.foldl minStep e) := by
  suffices h : ∀ (l : List Event) (m : Event),
      l.foldl
        (fun acc x =>
          match acc with
          | none => some x
          | some m => if x.block_number ≤ m.block_number then some x else some m)
        (some m) = some (l.foldl minStep m) by
    simpa [minByBlockNumber] using h l e
  intro l
  induction l with
  | nil => intro m; rfl
  | cons x xs ih =>
    intro m
    simp only [List.foldl_cons, minStep]
    by_cases hx : x.block_number ≤ m.block_number
    · simp [hx, ih]
    · simp [hx, ih]

lemma foldl_minStep_block_number (l : List Event) (m : Event) :
    (l.foldl minStep m).block_number = (l.map Event.block_number).foldl min m.block_number := by
  induction l generalizing m with
  | nil => rfl
  | cons x xs ih =>
    simp only [List.foldl_cons, List.map_cons, ih]
    congr 1
    unfold minStep
    by_cases hx : x.block_number ≤ m.block_number
    · simp [hx, min_eq_right hx]
    · simp [hx, min_eq_left (le_of_not_le hx)]

/-- The minimum of a list of integers (`none` on the empty list); the
mathematical yardstick the marker's block number is compared against. -/
def intListMin : List Int → Option Int
  | [] => none
  | x :: xs => some (xs.foldl min x)

lemma minByBlockNumber_nil : minByBlockNumber [] = none := rfl

lemma foldl_min_facts (xs : List Int) (a : Int) :
    (xs.foldl min a = a ∨ xs.foldl min a ∈ xs)
      ∧ xs.foldl min a ≤ a ∧ ∀ x ∈ xs, xs.foldl min a ≤ x := by
  induction xs generalizing a with
  | nil => exact ⟨Or.inl rfl, le_refl a, by simp⟩
  | cons c xs ih =>
    obtain ⟨hmem, hlea, hbound⟩ := ih (min a c)
    refine ⟨?_, ?_, ?_⟩
    · rcases hmem with heq | hin
      · rcases min_choice a c with hc | hc
        · exact Or.inl (by rw [List.foldl_cons, heq, hc])
        · exact Or.inr (by rw [List.foldl_cons, heq, hc]; exact List.mem_cons_self c xs)
      · exact Or.inr (List.mem_cons_of_mem c hin)
    · exact le_trans hlea (min_le_left a c)
    · intro x hx
      rcases List.mem_cons.mp hx with rfl | hx
      · exact le_trans hlea (min_le_right a x)
      · exact hbound x hx

/-- Sanity check: `intListMin` really is the minimum. -/
lemma intListMin_is_min {l : List Int} {m : Int} (h : intListMin l = some m) :
    m ∈ l ∧ ∀ x ∈ l, m ≤ x := by
  cases l with
  | nil => exact Option.noConfusion h
  | cons x xs =>
    obtain rfl : xs.foldl min x = m := Option.some.injEq .. ▸ h
    obtain ⟨hmem, hle, hbound⟩ := foldl_min_facts xs x
    refine ⟨?_, ?_⟩
    · rcases hmem with heq | hin
      · rw [heq]; exact List.mem_cons_self x xs
      · exact List.mem_cons_of_mem x hin
    · intro y hy
      rcases List.mem_cons.mp hy with rfl | hy
      · exact hle
      · exact hbound y hy

lemma foldl_min_pull (l : List Int) (a b : Int) :
    l.foldl min (min a b) = min a (l.foldl min b) := by
  induction l generalizing b with
  | nil => rfl
  | cons c l ih =>
    simp only [List.foldl_cons]
    rw [min_assoc, ih]

lemma intListMin_append {xs ys : List Int} {a b : Int}
    (hx : intListMin xs = some a) (hy : intListMin ys = some b) :
    intListMin (xs ++ ys) = some (min a b) := by
  cases xs with
  | nil => exact Option.noConfusion hx
  | cons x xs =>
    cases ys with
    | nil => exact Option.noConfusion hy
    | cons y ys =>
      obtain rfl : xs.foldl min x = a := Option.some.injEq .. ▸ hx
      obtain rfl : ys.foldl min y = b := Option.some.injEq .. ▸ hy
      show some ((xs ++ y :: ys).foldl min x) = _
      rw [List.foldl_append, List.foldl_cons, foldl_min_pull]

/-- C2: when the reorg diff is non-empty, the `ReorgedBlock` marker written
for the chain carries the minimum `block_number` over `added ∪ removed`;
when exactly one side is non-empty the minimum is taken from that side. -/
lemma getEarliest_eq_intListMin {addedEvents removedEvents : List Event}
    (hne : ¬(addedEvents = [] ∧ removedEvents = [])) :
    intListMin ((addedEvents ++ removedEvents).map Event.block_number)
      = some (getEarliestBlockNumber addedEvents removedEvents) := by
  cases addedEvents with
  | nil =>
    cases removedEvents with
    | nil => exact absurd ⟨rfl, rfl⟩ hne
    | cons r rs =>
      simp only [List.nil_append, getEarliestBlockNumber, minByBlockNumber_nil,
        minByBlockNumber_cons]
      rw [foldl_minStep_block_number]
      rfl
  | cons a as =>
    cases removedEvents with
    | nil =>
      simp only [List.append_nil, getEarliestBlockNumber, minByBlockNumber_nil,
        minByBlockNumber_cons]
      rw [foldl_minStep_block_number]
      rfl
    | cons r rs =>
      have hA : intListMin ((a :: as).map Event.block_number)
          = some ((as.map Event.block_number).foldl min a.block_number) := rfl
      have hR : intListMin ((r :: rs).map Event.block_number)
          = some ((rs.map Event.block_number).foldl min r.block_number) := rfl
      rw [List.map_append, intListMin_append hA hR]
      simp only [getEarliestBlockNumber, minByBlockNumber_cons]
      rw [foldl_minStep_block_number, foldl_minStep_block_number]

/-- C2: when the reorg diff is non-empty, the `ReorgedBlock` marker written
for the chain carries the minimum `block_number` over `added ∪ removed`;
when exactly one side is non-empty the minimum is taken from that side. -/
theorem reorged_block_carries_earliest_block_number
    (chainId : Int) (alreadyIngestedEvents jsonRpcEvents addedEvents removedEvents : List Event)
    (h : getJsonRpcAddedAndRemovedEvents alreadyIngestedEvents jsonRpcEvents
          = some (addedEvents, removedEvents)) :
    StoreWrite.createReorgedBlock chainId (getEarliestBlockNumber addedEvents removedEvents)
        ∈ maybeHandleChainReorg chainId alreadyIngestedEvents jsonRpcEvents
    ∧ intListMin ((addedEvents ++ removedEvents).map Event.block_number)
        = some (getEarliestBlockNumber addedEvents removedEvents)
    ∧ (addedEvents = [] →
        intListMin (removedEvents.map Event.block_number)
          = some (getEarliestBlockNumber addedEvents removedEvents))
    ∧ (removedEvents = [] →
        intListMin (addedEvents.map Event.block_number)
          = some (getEarliestBlockNumber addedEvents removedEvents)) := by
  have hne : ¬(addedEvents = [] ∧ removedEvents = []) := by
    rintro ⟨ha, hr⟩
    subst ha hr
    simp only [getJsonRpcAddedAndRemovedEvents] at h
    by_cases hc :
        ((jsonRpcEvents.filter (fun e => !hsContains (hsOfList alreadyIngestedEvents) e)).isEmpty
          && (alreadyIngestedEvents.filter
                (fun e => !hsContains (hsOfList jsonRpcEvents) e)).isEmpty) = true
    · rw [if_pos hc] at h; exact Option.noConfusion h
    · rw [if_neg hc] at h
      injection h with hpair
      have h1 := congrArg Prod.fst hpair
      have h2 := congrArg Prod.snd hpair
      simp only at h1 h2
      rw [h1, h2] at hc
      exact hc rfl
  have hmem : StoreWrite.createReorgedBlock chainId
      (getEarliestBlockNumber addedEvents removedEvents)
        ∈ maybeHandleChainReorg chainId alreadyIngestedEvents jsonRpcEvents := by
    unfold maybeHandleChainReorg
    rw [h]
    exact List.mem_cons_self _ _
  have hmin := getEarliest_eq_intListMin hne
  refine ⟨hmem, hmin, fun ha => ?_, fun hr => ?_⟩
  · rw [← hmin, ha, List.nil_append]
  · rw [← hmin, hr, List.append_nil]

/-- Concrete witness for C2: one added event (block 110) and one removed
event (block 115); the marker carries 110, the minimum over the union. -/
def c2EventAdded : Event :=
  { id := 7, contract_address := lit "0xabc", contract_name := lit "NftContract",
    abi := lit "Transfer(address,address,uint256)", block_hash := lit "0xhB",
    block_number := 110, transaction_hash := lit "0xt2", transaction_index := 1,
    log_index := 0, removed := false }

def c2EventRemoved : Event :=
  { id := 9, contract_address := lit "0xabc", contract_name := lit "NftContract",
    abi := lit "Transfer(address,address,uint256)", block_hash := lit "0xhA",
    block_number := 115, transaction_hash := lit "0xt3", transaction_index := 0,
    log_index := 1, removed := false }

theorem reorged_block_carries_earliest_block_number_witness :
    StoreWrite.createReorgedBlock 1 (getEarliestBlockNumber [c2EventAdded] [c2EventRemoved])
        ∈ maybeHandleChainReorg 1 [c2EventRemoved] [c2EventAdded]
      ∧ getEarliestBlockNumber [c2EventAdded] [c2EventRemoved] = 110 :=
  ⟨(reorged_block_carries_earliest_block_number 1 [c2EventRemoved] [c2EventAdded]
      [c2EventAdded] [c2EventRemoved] (by decide)).1, by decide⟩

/-! ## Ingestion filters (src/chaindexing/src/events_ingester.rs) -/

/-- A `ContractAddress` row: the identity, the three block cursors and the
naming fields the ingester and handler read (`i64` columns become `Int`). -/
structure ContractAddress where
  id : Int
  chain_id : Int
  next_block_number_to_ingest_from : Int
  next_block_number_to_handle_from : Int
  start_block_number : Int
  address : Str
  contract_name : Str
deriving DecidableEq, Repr

/-- Rust `i64 as u64`: the two's-complement cast into `[0, 2^64)`. -/
def u64cast (n : Int) : Nat := (n % (2 : Int) ^ 64).toNat

/-- Modelled from the spec: `MinConfirmationCount::deduct_from` lives in
`chain_reorg.rs`, which is not under `src/`; spec §9 requires it to clamp at
`start`. Only `Execution.main` matters to the claims below. -/
def MinConfirmationCount.deductFrom (minConfirmationCount nextIngest startBlock : Nat) : Nat :=
  max startBlock (nextIngest - minConfirmationCount)

/-- `Execution` (chain_reorg.rs), as consumed by `Filter::new`. -/
inductive Execution
  | main
  | confirmation (minConfirmationCount : Nat)

/-- The data of one `Filter` (events_ingester.rs:307): contract address id
and address plus the `EthersFilter` payload (topic0 set and block window). -/
structure Filter where
  contract_address_id : Int
  address : Str
  topics : List Nat
  from_block : Nat
  to_block : Nat
deriving DecidableEq, Repr

/-- `Filter::new` (events_ingester.rs:314). -/
def Filter.new (contractAddress : ContractAddress) (topics : List Nat)
    (currentBlockNumber blocksPerBatch : Nat) (execution : Execution) : Filter :=
  let fromBlockNumber :=
    match execution with
    | .main => u64cast contractAddress.next_block_number_to_ingest_from
    | .confirmation mcc =>
        MinConfirmationCount.deductFrom mcc
          (u64cast contractAddress.next_block_number_to_ingest_from)
          (u64cast contractAddress.start_block_number)
  let toBlockNumber :=
    match execution with
    | .main => min (fromBlockNumber + blocksPerBatch) currentBlockNumber
    | .confirmation _ => fromBlockNumber + blocksPerBatch
  { contract_address_id := contractAddress.id, address := contractAddress.address,
    topics := topics, from_block := fromBlockNumber, to_block := toBlockNumber }

/-- The per-address mapping step of `Filters::new` (events_ingester.rs:261):
`None` models the source's `unwrap` panic when a contract name has no entry
in the grouped topics map. -/
def buildFilters (topicsByContractName : Str → Option (List Nat))
    (currentBlockNumber blocksPerBatch : Nat) (execution : Execution) :
    List ContractAddress → Option (List Filter)
  | [] => some []
  | contractAddress :: rest =>
    match topicsByContractName contractAddress.contract_name,
        buildFilters topicsByContractName currentBlockNumber blocksPerBatch execution rest with
    | some topics, some filters =>
      some (Filter.new contractAddress topics currentBlockNumber blocksPerBatch execution
              :: filters)
    | _, _ => none

/-- `Filters::new` (events_ingester.rs:251): build one filter per contract
address, then drop every filter whose `from_block` equals its `to_block`. -/
def Filters.new (contractAddresses : List ContractAddress)
    (topicsByContractName : Str → Option (List Nat))
    (currentBlockNumber blocksPerBatch : Nat) (execution : Execution) :
    Option (List Filter) :=
  (buildFilters topicsByContractName currentBlockNumber blocksPerBatch execution
      contractAddresses).map
    (fun filters => filters.filter (fun f => !(f.from_block == f.to_block)))

/-- `EventsIngester::filter_uningested_contract_addresses`
(events_ingester.rs:170). -/
def filterUningestedContractAddresses (contractAddresses : List ContractAddress)
    (currentBlockNumber : Nat) : List ContractAddress :=
  contractAddresses.filter
    (fun ca => currentBlockNumber > u64cast ca.next_block_number_to_ingest_from)

lemma buildFilters_sound {topicsByContractName : Str → Option (List Nat)}
    {currentBlockNumber blocksPerBatch : Nat} {execution : Execution}
    {contractAddresses : List ContractAddress} {built : List Filter}
    (h : buildFilters topicsByContractName currentBlockNumber blocksPerBatch execution
          contractAddresses = some built) :
    (∀ f ∈ built, ∃ ca ∈ contractAddresses, ∃ topics,
        topicsByContractName ca.contract_name = some topics
          ∧ f = Filter.new ca topics currentBlockNumber blocksPerBatch execution)
    ∧ (∀ ca ∈ contractAddresses, ∀ topics,
        topicsByContractName ca.contract_name = some topics →
        Filter.new ca topics currentBlockNumber blocksPerBatch execution ∈ built) := by
  induction contractAddresses generalizing built with
  | nil =>
    obtain rfl : ([] : List Filter) = built := Option.some.injEq .. ▸ h
    exact ⟨by simp, by simp⟩
  | cons ca rest ih =>
    simp only [buildFilters] at h
    rcases htp : topicsByContractName ca.contract_name with _ | topics
    · rw [htp] at h; exact Option.noConfusion h
    · rw [htp] at h
      rcases hrest : buildFilters topicsByContractName currentBlockNumber blocksPerBatch
          execution rest with _ | filters
      · rw [hrest] at h; exact Option.noConfusion h
      · rw [hrest] at h
        obtain rfl :
            Filter.new ca topics currentBlockNumber blocksPerBatch execution :: filters
              = built := Option.some.injEq .. ▸ h
        obtain ⟨ihFwd, ihBwd⟩ := ih hrest
        constructor
        · intro f hf
          rcases List.mem_cons.mp hf with rfl | hf
          · exact ⟨ca, List.mem_cons_self .., topics, htp, rfl⟩
          · obtain ⟨ca', hca', topics', htp', hf'⟩ := ihFwd f hf
            exact ⟨ca', List.mem_cons_of_mem _ hca', topics', htp', hf'⟩
        · intro ca' hca' topics' htp'
          rcases List.mem_cons.mp hca' with rfl | hca'
          · rw [htp] at htp'
            obtain rfl : topics = topics' := Option.some.injEq .. ▸ htp'
            exact List.mem_cons_self ..
          · exact List.mem_cons_of_mem _ (ihBwd ca' hca' topics' htp')

/-- C3: every filter kept by a main-execution pass has
`from_block = next_block_number_to_ingest_from` and
`to_block = min(from_block + blocks_per_batch, current_block_number)`, and a
filter with `from_block = to_block` is dropped while every other built
filter is kept. -/
theorem main_execution_filter_window
    (contractAddresses : List ContractAddress)
    (topicsByContractName : Str → Option (List Nat))
    (currentBlockNumber blocksPerBatch : Nat) (filters : List Filter)
    (h : Filters.new contractAddresses topicsByContractName currentBlockNumber blocksPerBatch
          Execution.main = some filters) :
    (∀ f ∈ filters, ∃ ca ∈ contractAddresses,
        f.from_block = u64cast ca.next_block_number_to_ingest_from
          ∧ f.to_block = min (f.from_block + blocksPerBatch) currentBlockNumber
          ∧ f.from_block ≠ f.to_block)
    ∧ (∀ ca ∈ contractAddresses, ∀ topics,
        topicsByContractName ca.contract_name = some topics →
        (Filter.new ca topics currentBlockNumber blocksPerBatch Execution.main).from_block
            ≠ (Filter.new ca topics currentBlockNumber blocksPerBatch Execution.main).to_block →
        Filter.new ca topics currentBlockNumber blocksPerBatch Execution.main ∈ filters) := by
  simp only [Filters.new] at h
  rcases hbuilt : buildFilters topicsByContractName currentBlockNumber blocksPerBatch
      Execution.main contractAddresses with _ | built
  · rw [hbuilt] at h; exact Option.noConfusion h
  · rw [hbuilt] at h
    simp only [Option.map_some'] at h
    obtain rfl : built.filter (fun f => !(f.from_block == f.to_block)) = filters :=
      Option.some.injEq .. ▸ h
    obtain ⟨hFwd, hBwd⟩ := buildFilters_sound hbuilt
    constructor
    · intro f hf
      obtain ⟨hfb, hfkeep⟩ := List.mem_filter.mp hf
      obtain ⟨ca, hca, topics, htp, rfl⟩ := hFwd f hfb
      refine ⟨ca, hca, rfl, rfl, ?_⟩
      simpa using hfkeep
    · intro ca hca topics htp hne
      refine List.mem_filter.mpr ⟨hBwd ca hca topics htp, ?_⟩
      simpa using hne

/-- Concrete witness for C3 (spec scenario S3): `blocks_per_batch = 20`, one
address with `next_ingest = 100`, `current_block = 150` yields the window
`[100, 120]` and the filter is kept. -/
def c3ContractAddress : ContractAddress :=
  { id := 5, chain_id := 1, next_block_number_to_ingest_from := 100,
    next_block_number_to_handle_from := 90, start_block_number := 0,
    address := lit "0xabc", contract_name := lit "NftContract" }

theorem main_execution_filter_window_witness :
    ∃ f ∈ [Filter.new c3ContractAddress [0] 150 20 Execution.main],
      f.from_block = u64cast c3ContractAddress.next_block_number_to_ingest_from
        ∧ f.to_block = min (f.from_block + 20) 150 ∧ f.from_block ≠ f.to_block :=
  have happly := main_execution_filter_window [c3ContractAddress]
    (fun _ => some [0]) 150 20 [Filter.new c3ContractAddress [0] 150 20 Execution.main]
    (by decide)
  ⟨Filter.new c3ContractAddress [0] 150 20 Execution.main, List.mem_cons_self .., by
    have := happly.1 (Filter.new c3ContractAddress [0] 150 20 Execution.main)
      (List.mem_cons_self ..)
    obtain ⟨ca, hca, h1, h2, h3⟩ := this
    obtain rfl : ca = c3ContractAddress := by
      rcases List.mem_cons.mp hca with hh | hh
      · exact hh
      · exact absurd hh (List.not_mem_nil ca)
    exact ⟨h1, h2, h3⟩⟩

/-! ## Event handler runner (src/chaindexing/src/event_handlers/handle_events.rs) -/

/-- Modelled from the spec: `Event::match_contract_address` lives in
`events.rs`, which is not under `src/`; spec §4.D.b keeps the events whose
`contract_address` matches the contract address row. -/
def Event.matchContractAddress (e : Event) (address : Str) : Bool :=
  e.contract_address == address

/-- Modelled from the spec: `Event::not_removed` lives in `events.rs`;
spec §4.D.b keeps the events whose `removed` flag is false. -/
def Event.notRemoved (e : Event) : Bool := !e.removed

/-- The predicate of the page filter in
`handle_events_for_contract_address` (handle_events.rs:53). -/
def pageKeep (contractAddress : ContractAddress) (e : Event) : Bool :=
  e.matchContractAddress contractAddress.address && e.notRemoved

/-- The sort key order of `events.sort_by_key(|e| (e.block_number,
e.log_index))` (handle_events.rs:57): lexicographic on the pair. -/
def keyLe (a b : Event) : Prop :=
  a.block_number < b.block_number
    ∨ (a.block_number = b.block_number ∧ a.log_index ≤ b.log_index)

/-- Strict version of `keyLe`. -/
def keyLt (a b : Event) : Prop :=
  a.block_number < b.block_number
    ∨ (a.block_number = b.block_number ∧ a.log_index < b.log_index)

instance : DecidableRel keyLe := fun a b => by unfold keyLe; exact inferInstance

instance : DecidableRel keyLt := fun a b => by unfold keyLt; exact inferInstance

instance : IsTotal Event keyLe where
  total a b := by
    unfold keyLe
    rcases lt_trichotomy a.block_number b.block_number with h | h | h
    · exact Or.inl (Or.inl h)
    · rcases le_total a.log_index b.log_index with h' | h'
      · exact Or.inl (Or.inr ⟨h, h'⟩)
      · exact Or.inr (Or.inr ⟨h.symm, h'⟩)
    · exact Or.inr (Or.inl h)

instance : IsTrans Event keyLe where
  trans a b c hab hbc := by
    unfold keyLe at hab hbc ⊢
    rcases hab with hab | ⟨hab, hab'⟩ <;> rcases hbc with hbc | ⟨hbc, hbc'⟩
    · exact Or.inl (hab.trans hbc)
    · exact Or.inl (hbc ▸ hab)
    · exact Or.inl (hab ▸ hbc)
    · exact Or.inr ⟨hab.trans hbc, hab'.trans hbc'⟩

/-- The filtered, sorted page the handler loop iterates
(handle_events.rs:50-57). -/
def handledEventsOfPage (contractAddress : ContractAddress) (page : List Event) : List Event :=
  List.insertionSort keyLe (page.filter (fun e => pageKeep contractAddress e))

/-- One operation issued on the raw-query transaction client during a page. -/
inductive HandlerOp
  | openTxn
  | invoke (e : Event)
  | updateCursor (contractAddressId : Int) (nextBlockNumberToHandleFrom : Int)
  | commitTxn
deriving DecidableEq, Repr

/-- One page of `HandleEvents::handle_events_for_contract_address`
(handle_events.rs:49-81), with the raw-query transaction client reified as
the list of operations issued on it: get the txn client, invoke the handler
for each filtered event in sorted order, advance
`next_block_number_to_handle_from` past the last event when the filtered
page is non-empty, then commit. The handler lookup by `event.abi` is
abstracted into the `invoke` operation. -/
def handlePage (contractAddress : ContractAddress) (page : List Event) : List HandlerOp :=
  let events := handledEventsOfPage contractAddress page
  HandlerOp.openTxn ::
    (events.map HandlerOp.invoke
      ++ (match events.getLast? with
          | some e => [HandlerOp.updateCursor contractAddress.id (e.block_number + 1)]
          | none => [])
      ++ [HandlerOp.commitTxn])

/-- The events a page's operations invoke handlers on, in order. -/
def invokedEvents (ops : List HandlerOp) : List Event :=
  ops.filterMap (fun op =>
    match op with
    | HandlerOp.invoke e => some e
    | _ => none)

lemma invokedEvents_map_invoke (l : List Event) :
    invokedEvents (l.map HandlerOp.invoke) = l := by
  induction l with
  | nil => rfl
  | cons e t ih => simpa [invokedEvents, List.filterMap_cons] using ih

lemma invokedEvents_handlePage (contractAddress : ContractAddress) (page : List Event) :
    invokedEvents (handlePage contractAddress page)
      = handledEventsOfPage contractAddress page := by
  have hmap := invokedEvents_map_invoke (handledEventsOfPage contractAddress page)
  unfold invokedEvents at hmap ⊢
  unfold handlePage
  rcases hlast : (handledEventsOfPage contractAddress page).getLast? with _ | e <;>
    simp only [hlast, List.filterMap_cons, List.filterMap_append] <;>
    simp [hmap]

lemma rel_getLast_of_sorted {α : Type} {r : α → α → Prop} :
    ∀ {l : List α}, l.Sorted r → ∀ {x : α}, l.getLast? = some x →
      ∀ e ∈ l, e = x ∨ r e x := by
  intro l
  induction l with
  | nil => intro _ x hx; exact Option.noConfusion hx
  | cons a t ih =>
    intro hs x hx e he
    cases t with
    | nil =>
      obtain rfl : a = x := by simpa using hx
      obtain rfl : e = a := by simpa using he
      exact Or.inl rfl
    | cons b t' =>
      have hx' : (b :: t').getLast? = some x := by
        simpa [List.getLast?_cons_cons] using hx
      rcases List.mem_cons.mp he with rfl | he'
      · right
        have hxmem : x ∈ b :: t' := by
          obtain ⟨hne, hxlast⟩ := List.mem_getLast?_eq_getLast (l := b :: t') (x := x) hx'
          rw [hxlast]
          exact List.getLast_mem hne
        exact (List.pairwise_cons.mp hs).1 x hxmem
      · exact ih (List.Pairwise.of_cons hs) hx' e he'

/-- C4: for one page of events streamed for a contract address, handlers are
invoked exactly on the events whose `contract_address` matches and whose
`removed` flag is false, and — whenever the page's kept events have pairwise
distinct `(block_number, log_index)` keys — the invocation order is strictly
ascending by that pair (it is always non-strictly sorted by it). -/
theorem handler_invocations_exact_and_ordered
    (contractAddress : ContractAddress) (page : List Event) :
    (invokedEvents (handlePage contractAddress page)).Perm
        (page.filter (fun e => pageKeep contractAddress e))
    ∧ (invokedEvents (handlePage contractAddress page)).Sorted keyLe
    ∧ ((page.filter (fun e => pageKeep contractAddress e)).Pairwise
          (fun a b => (a.block_number, a.log_index) ≠ (b.block_number, b.log_index)) →
        (invokedEvents (handlePage contractAddress page)).Pairwise keyLt) := by
  rw [invokedEvents_handlePage]
  unfold handledEventsOfPage
  refine ⟨List.perm_insertionSort keyLe _, List.sorted_insertionSort keyLe _, fun hdist => ?_⟩
  have hperm :=
    List.perm_insertionSort keyLe (page.filter (fun e => pageKeep contractAddress e))
  have hdist' := (List.Perm.pairwise_iff (fun h => h.symm) hperm).mpr hdist
  have hsorted :=
    List.sorted_insertionSort keyLe (page.filter (fun e => pageKeep contractAddress e))
  have hboth := List.Pairwise.and hsorted hdist'
  refine hboth.imp ?_
  intro a b hab
  obtain ⟨hle, hne⟩ := hab
  rcases hle with hlt | ⟨heq, hli⟩
  · exact Or.inl hlt
  · refine Or.inr ⟨heq, lt_of_le_of_ne hli fun heq' => hne ?_⟩
    rw [heq, heq']

/-- Concrete witness for C4: a page holding a removed event, an event of a
foreign address and three matching events arriving out of order; invocations
are exactly the three matching live events, in strictly ascending
`(block_number, log_index)` order. -/
def c4ContractAddress : ContractAddress :=
  { id := 11, chain_id := 1, next_block_number_to_ingest_from := 200,
    next_block_number_to_handle_from := 4, start_block_number := 0,
    address := lit "0xaaa", contract_name := lit "NftContract" }

def c4EventA : Event :=
  { id := 21, contract_address := lit "0xaaa", contract_name := lit "NftContract",
    abi := lit "Transfer(address,address,uint256)", block_hash := lit "0xh5",
    block_number := 5, transaction_hash := lit "0xt5", transaction_index := 0,
    log_index := 2, removed := false }

def c4EventB : Event :=
  { c4EventA with id := 22, log_index := 1 }

def c4EventC : Event :=
  { c4EventA with id := 23, block_number := 4, block_hash := lit "0xh4", log_index := 7 }

def c4EventRemoved : Event :=
  { c4EventA with id := 24, log_index := 3, removed := true }

def c4EventForeign : Event :=
  { c4EventA with id := 25, contract_address := lit "0xbbb", log_index := 4 }

theorem handler_invocations_exact_and_ordered_witness :
    (invokedEvents (handlePage c4ContractAddress
        [c4EventA, c4EventRemoved, c4EventB, c4EventForeign, c4EventC])).Pairwise keyLt
      ∧ (invokedEvents (handlePage c4ContractAddress
          [c4EventA, c4EventRemoved, c4EventB, c4EventForeign, c4EventC])).Perm
          ([c4EventA, c4EventRemoved, c4EventB, c4EventForeign, c4EventC].filter
            (fun e => pageKeep c4ContractAddress e)) :=
  ⟨(handler_invocations_exact_and_ordered c4ContractAddress
      [c4EventA, c4EventRemoved, c4EventB, c4EventForeign, c4EventC]).2.2 (by decide),
   (handler_invocations_exact_and_ordered c4ContractAddress
      [c4EventA, c4EventRemoved, c4EventB, c4EventForeign, c4EventC]).1⟩

/-- C5: after a non-empty filtered page, the handler runner issues — on the
same raw-query transaction client as the handler invocations, after all of
them and before the commit — a cursor update setting
`next_block_number_to_handle_from` to the last handled event's
`block_number + 1`, that last event carrying the page's maximal block
number. -/
theorem cursor_advances_past_last_handled_event_before_commit
    (contractAddress : ContractAddress) (page : List Event)
    (h : page.filter (fun e => pageKeep contractAddress e) ≠ []) :
    ∃ lastEvent,
      (handledEventsOfPage contractAddress page).getLast? = some lastEvent
      ∧ (∀ e ∈ handledEventsOfPage contractAddress page,
          e.block_number ≤ lastEvent.block_number)
      ∧ handlePage contractAddress page
          = HandlerOp.openTxn ::
              ((handledEventsOfPage contractAddress page).map HandlerOp.invoke
                ++ [HandlerOp.updateCursor contractAddress.id (lastEvent.block_number + 1),
                    HandlerOp.commitTxn]) := by
  have hne : handledEventsOfPage contractAddress page ≠ [] := by
    unfold handledEventsOfPage
    intro hcontra
    have hperm :=
      List.perm_insertionSort keyLe (page.filter (fun e => pageKeep contractAddress e))
    rw [hcontra] at hperm
    exact h hperm.nil_eq.symm
  have hsorted : (handledEventsOfPage contractAddress page).Sorted keyLe := by
    unfold handledEventsOfPage
    exact List.sorted_insertionSort keyLe _
  have hlast := List.getLast?_eq_getLast_of_ne_nil hne
  refine ⟨(handledEventsOfPage contractAddress page).getLast hne, hlast, ?_, ?_⟩
  · intro e he
    rcases rel_getLast_of_sorted hsorted hlast e he with rfl | hrel
    · exact le_refl _
    · rcases hrel with hlt | ⟨heq, _⟩
      · exact le_of_lt hlt
      · exact le_of_eq heq
  · simp only [handlePage]
    rw [hlast]
    simp

/-- Concrete witness for C5: a two-event page; the cursor advances to the
later event's block number plus one, between the invocations and the
commit. -/
def c5ContractAddress : ContractAddress :=
  { id := 13, chain_id := 1, next_block_number_to_ingest_from := 300,
    next_block_number_to_handle_from := 7, start_block_number := 0,
    address := lit "0xccc", contract_name := lit "NftContract" }

def c5EventEarly : Event :=
  { id := 31, contract_address := lit "0xccc", contract_name := lit "NftContract",
    abi := lit "Transfer(address,address,uint256)", block_hash := lit "0xh7",
    block_number := 7, transaction_hash := lit "0xt7", transaction_index := 0,
    log_index := 0, removed := false }

def c5EventLate : Event :=
  { c5EventEarly with id := 32, block_number := 9, block_hash := lit "0xh9", log_index := 1 }

theorem cursor_advances_past_last_handled_event_before_commit_witness :
    ∃ lastEvent,
      (handledEventsOfPage c5ContractAddress [c5EventLate, c5EventEarly]).getLast?
          = some lastEvent
      ∧ (∀ e ∈ handledEventsOfPage c5ContractAddress [c5EventLate, c5EventEarly],
          e.block_number ≤ lastEvent.block_number)
      ∧ handlePage c5ContractAddress [c5EventLate, c5EventEarly]
          = HandlerOp.openTxn ::
              ((handledEventsOfPage c5ContractAddress [c5EventLate, c5EventEarly]).map
                  HandlerOp.invoke
                ++ [HandlerOp.updateCursor c5ContractAddress.id (lastEvent.block_number + 1),
                    HandlerOp.commitTxn]) :=
  cursor_advances_past_last_handled_event_before_commit c5ContractAddress
    [c5EventLate, c5EventEarly] (by decide)

/-- C10: when a page keeps no event (none matches the address with
`removed = false`), no handler is invoked and no cursor update is issued,
yet the raw-query transaction is still opened and committed. -/
theorem empty_filtered_page_only_opens_and_commits
    (contractAddress : ContractAddress) (page : List Event)
    (h : page.filter (fun e => pageKeep contractAddress e) = []) :
    handlePage contractAddress page = [HandlerOp.openTxn, HandlerOp.commitTxn] := by
  have hempty : handledEventsOfPage contractAddress page = [] := by
    unfold handledEventsOfPage
    rw [h]
    rfl
  unfold handlePage
  rw [hempty]
  rfl

/-- Concrete witness for C10: a page holding only a removed event leads to a
bare open-then-commit transaction. -/
def c10ContractAddress : ContractAddress :=
  { id := 17, chain_id := 1, next_block_number_to_ingest_from := 400,
    next_block_number_to_handle_from := 12, start_block_number := 0,
    address := lit "0xddd", contract_name := lit "NftContract" }

def c10EventRemoved : Event :=
  { id := 41, contract_address := lit "0xddd", contract_name := lit "NftContract",
    abi := lit "Transfer(address,address,uint256)", block_hash := lit "0xh12",
    block_number := 12, transaction_hash := lit "0xt12", transaction_index := 0,
    log_index := 0, removed := true }

theorem empty_filtered_page_only_opens_and_commits_witness :
    handlePage c10ContractAddress [c10EventRemoved]
      = [HandlerOp.openTxn, HandlerOp.commitTxn] :=
  empty_filtered_page_only_opens_and_commits c10ContractAddress [c10EventRemoved] (by decide)

instance {ε α : Type} [DecidableEq ε] [DecidableEq α] : DecidableEq (Except ε α) :=
  fun x y =>
    match x, y with
    | .ok a, .ok b =>
      if h : a = b then isTrue (by rw [h])
      else isFalse (fun hc => h (by injection hc))
    | .error a, .error b =>
      if h : a = b then isTrue (by rw [h])
      else isFalse (fun hc => h (by injection hc))
    | .ok _, .error _ => isFalse (fun hc => Except.noConfusion hc)
    | .error _, .ok _ => isFalse (fun hc => Except.noConfusion hc)

/-! ## C6: the S1 unique-index migration -/

/-- Scenario S1 (spec §8), first user migration. -/
def s1UserMigration0 : Str :=
  lit "CREATE TABLE IF NOT EXISTS nft_states (token_id INTEGER NOT NULL, contract_address TEXT NOT NULL, owner_address TEXT NOT NULL)"

/-- Scenario S1 (spec §8), second user migration. -/
def s1UserMigration1 : Str :=
  lit "UPDATE nft_states SET owner_address = '' WHERE owner_address IS NULL"

/-- The view-table migration the planner emits for S1. -/
def s1ViewsMigration : Str :=
  lit "CREATE TABLE IF NOT EXISTS nft_states (token_id INTEGER NOT NULL, contract_address TEXT NOT NULL, owner_address TEXT NOT NULL,state_version_group_id UUID NOT NULL, chain_id INTEGER NOT NULL, block_hash TEXT NOT NULL, block_number BIGINT NOT NULL, transaction_hash TEXT NOT NULL, transaction_index BIGINT NOT NULL, log_index BIGINT NOT NULL)"

/-- The versions-table migration the planner emits for S1. -/
def s1VersionsMigration : Str :=
  lit "CREATE TABLE IF NOT EXISTS chaindexing_state_versions_for_nft_states (token_id INTEGER NOT NULL, contract_address TEXT NOT NULL, owner_address TEXT NOT NULL,state_version_id BIGSERIAL PRIMARY KEY, state_version_is_deleted BOOL NOT NULL default false, state_version_group_id UUID NOT NULL, chain_id INTEGER NOT NULL, block_hash TEXT NOT NULL, block_number BIGINT NOT NULL, transaction_hash TEXT NOT NULL, transaction_index BIGINT NOT NULL, log_index BIGINT NOT NULL)"

/-- The unique-index migration the planner actually emits for S1: the user
columns come first and the column list is joined without spaces. -/
def s1UniqueIndexMigration : Str :=
  lit "CREATE UNIQUE INDEX IF NOT EXISTS unique_chaindexing_state_versions_for_nft_states ON chaindexing_state_versions_for_nft_states(token_id,contract_address,owner_address,state_version_is_deleted,state_version_group_id,chain_id,block_hash,block_number,transaction_hash,transaction_index,log_index)"

/-- The unique-index migration the spec claims for S1: version bookkeeping
columns first and spaces after the commas. -/
def s1ClaimedUniqueIndexMigration : Str :=
  lit "CREATE UNIQUE INDEX IF NOT EXISTS unique_chaindexing_state_versions_for_nft_states ON chaindexing_state_versions_for_nft_states(state_version_is_deleted, state_version_group_id, token_id, contract_address, owner_address, chain_id, block_hash, block_number, transaction_hash, transaction_index, log_index)"

/-- C6 counterexample: on the S1 input, the third output migration is not
the string the spec claims (the column order and comma spacing differ). -/
theorem s1_unique_index_differs_from_claimed_string :
    getMigrations [s1UserMigration0, s1UserMigration1]
        = Except.ok [s1ViewsMigration, s1VersionsMigration, s1UniqueIndexMigration,
            s1UserMigration1]
      ∧ s1UniqueIndexMigration ≠ s1ClaimedUniqueIndexMigration := by
  constructor
  · decide
  · decide

/-- C6 (amended): on the S1 input, the third output migration is exactly
`CREATE UNIQUE INDEX IF NOT EXISTS unique_<prefix>nft_states ON
<prefix>nft_states(token_id,contract_address,owner_address,
state_version_is_deleted,state_version_group_id,chain_id,block_hash,
block_number,transaction_hash,transaction_index,log_index)`: every column of
the versions table except `state_version_id`, in the versions table's own
column order, joined by commas without spaces. -/
theorem s1_unique_index_covers_versions_columns :
    getMigrations [s1UserMigration0, s1UserMigration1]
        = Except.ok [s1ViewsMigration, s1VersionsMigration, s1UniqueIndexMigration,
            s1UserMigration1]
      ∧ extractTableFields s1VersionsMigration
          = [lit "token_id", lit "contract_address", lit "owner_address",
             lit "state_version_id", lit "state_version_is_deleted",
             lit "state_version_group_id", lit "chain_id", lit "block_hash",
             lit "block_number", lit "transaction_hash", lit "transaction_index",
             lit "log_index"]
      ∧ s1UniqueIndexMigration
          = getUniqueIndexMigrationForStateVersions
              (extractTableName s1VersionsMigration)
              (extractTableFields s1VersionsMigration) := by
  refine ⟨?_, ?_, ?_⟩
  · decide
  · decide
  · decide

/-! ## C8: temporal-keyword validation -/

/-- C8: a user migration list containing a migration with a temporal keyword
(case-insensitively ` timestamp`, ` timestampz`, ` date` or ` time`) makes
the planner abort with a fatal error and produce no migrations at all. -/
theorem invalid_keyword_aborts_with_no_migrations
    (userMigrations : List Str)
    (h : ∃ m ∈ userMigrations, migrationIsInvalid m) :
    ∃ err, getMigrations userMigrations = Except.error err := by
  induction userMigrations with
  | nil =>
    obtain ⟨m, hm, _⟩ := h
    exact absurd hm (List.not_mem_nil m)
  | cons m rest ih =>
    by_cases hv : migrationIsInvalid m
    · exact ⟨m, by simp [getMigrations, hv]⟩
    · obtain ⟨m', hm', hv'⟩ := h
      rcases List.mem_cons.mp hm' with rfl | hm'
      · exact absurd hv' hv
      · obtain ⟨err, herr⟩ := ih ⟨m', hm', hv'⟩
        exact ⟨err, by simp [getMigrations, hv, herr]⟩

/-- Concrete witness for C8 (spec scenario S2): a `timestamp` column aborts
the planner. -/
def s2UserMigration : Str :=
  lit "CREATE TABLE IF NOT EXISTS t (created_at timestamp NOT NULL)"

theorem invalid_keyword_aborts_with_no_migrations_witness :
    ∃ err, getMigrations [s2UserMigration] = Except.error err :=
  invalid_keyword_aborts_with_no_migrations [s2UserMigration] (by decide)

/-! ## C9: planner cardinality and pass-through -/

/-- The `starts_with("CREATE TABLE IF NOT EXISTS")` test of the planner. -/
def isCreateMigration (m : Str) : Bool :=
  startsWithStr m (lit "CREATE TABLE IF NOT EXISTS")

lemma processUserMigration_length (m : Str) :
    (processUserMigration m).length = if isCreateMigration m then 3 else 1 := by
  unfold processUserMigration isCreateMigration
  by_cases hc : startsWithStr m (lit "CREATE TABLE IF NOT EXISTS") <;> simp [hc]

lemma processUserMigration_passthrough (m : Str) (h : ¬isCreateMigration m) :
    processUserMigration m = [m] := by
  unfold processUserMigration
  unfold isCreateMigration at h
  simp [h]

/-- C9: with no validation failure, the planner emits
`|user| + 2 · |creates(user)|` migrations, and every non-CREATE user
migration appears byte-identical in the output. -/
theorem planner_cardinality_and_passthrough
    (userMigrations out : List Str)
    (h : getMigrations userMigrations = Except.ok out) :
    out.length = userMigrations.length + 2 * userMigrations.countP isCreateMigration
    ∧ ∀ m ∈ userMigrations, ¬isCreateMigration m → m ∈ out := by
  induction userMigrations generalizing out with
  | nil =>
    obtain rfl : ([] : List Str) = out := by
      simpa [getMigrations] using h
    exact ⟨rfl, by simp⟩
  | cons m rest ih =>
    by_cases hv : migrationIsInvalid m
    · rw [show getMigrations (m :: rest) = Except.error m from by
        simp [getMigrations, hv]] at h
      exact Except.noConfusion h
    · rcases hrest : getMigrations rest with err | restOut
      · rw [show getMigrations (m :: rest) = Except.error err from by
          simp [getMigrations, hv, hrest]] at h
        exact Except.noConfusion h
      · rw [show getMigrations (m :: rest)
            = Except.ok (processUserMigration m ++ restOut) from by
          simp [getMigrations, hv, hrest]] at h
        obtain rfl : processUserMigration m ++ restOut = out := by
          simpa using h
        obtain ⟨ihlen, ihmem⟩ := ih restOut hrest
        constructor
        · rw [List.length_append, ihlen, List.countP_cons, processUserMigration_length]
          by_cases hc : isCreateMigration m <;> simp [hc] <;> omega
        · intro m' hm' hnc
          rcases List.mem_cons.mp hm' with rfl | hm'
          · rw [List.mem_append, processUserMigration_passthrough m' hnc]
            exact Or.inl (List.mem_singleton_self m')
          · exact List.mem_append.mpr (Or.inr (ihmem m' hm' hnc))

/-- Concrete witness for C9: the S1 scenario input — one CREATE and one
UPDATE migration — yields four migrations with the UPDATE passed through. -/
theorem planner_cardinality_and_passthrough_witness :
    ([s1ViewsMigration, s1VersionsMigration, s1UniqueIndexMigration,
        s1UserMigration1] : List Str).length
        = [s1UserMigration0, s1UserMigration1].length
            + 2 * [s1UserMigration0, s1UserMigration1].countP isCreateMigration
      ∧ s1UserMigration1
          ∈ [s1ViewsMigration, s1VersionsMigration, s1UniqueIndexMigration,
              s1UserMigration1] :=
  have h := planner_cardinality_and_passthrough [s1UserMigration0, s1UserMigration1]
    [s1ViewsMigration, s1VersionsMigration, s1UniqueIndexMigration, s1UserMigration1]
    (by decide)
  ⟨h.1, h.2 s1UserMigration1
    (List.mem_cons_of_mem _ (List.mem_cons_self ..)) (by decide)⟩

/-! ## C7: duplicate default-column removal -/

/-- C7 counterexample input: a user CREATE migration whose first column name
embeds both `contract_address` and `chain_id` as substrings and whose second
column is a literal `chain_id`. -/
def c7UserMigration : Str :=
  lit "CREATE TABLE IF NOT EXISTS t (a_contract_address_chain_id INTEGER NOT NULL, chain_id INTEGER NOT NULL)"

/-- The view-table migration the planner emits for `c7UserMigration`:
`chain_id` occurs twice (and both `contract_address` and `chain_id` default
columns were dropped). -/
def c7ViewsMigration : Str :=
  lit "CREATE TABLE IF NOT EXISTS t (a_contract_address_chain_id INTEGER NOT NULL, chain_id INTEGER NOT NULL,state_version_group_id UUID NOT NULL, block_hash TEXT NOT NULL, block_number BIGINT NOT NULL, transaction_hash TEXT NOT NULL, transaction_index BIGINT NOT NULL, log_index BIGINT NOT NULL)"

/-- The versions-table migration the planner emits for `c7UserMigration`. -/
def c7VersionsMigration : Str :=
  lit "CREATE TABLE IF NOT EXISTS chaindexing_state_versions_for_t (a_contract_address_chain_id INTEGER NOT NULL, chain_id INTEGER NOT NULL,state_version_id BIGSERIAL PRIMARY KEY, state_version_is_deleted BOOL NOT NULL default false, state_version_group_id UUID NOT NULL, block_hash TEXT NOT NULL, block_number BIGINT NOT NULL, transaction_hash TEXT NOT NULL, transaction_index BIGINT NOT NULL, log_index BIGINT NOT NULL)"

/-- The unique-index migration the planner emits for `c7UserMigration`. -/
def c7UniqueIndexMigration : Str :=
  lit "CREATE UNIQUE INDEX IF NOT EXISTS unique_chaindexing_state_versions_for_t ON chaindexing_state_versions_for_t(a_contract_address_chain_id,chain_id,state_version_is_deleted,state_version_group_id,block_hash,block_number,transaction_hash,transaction_index,log_index)"

/-- C7 counterexample: on `c7UserMigration`, `chain_id` occurs more than
once in the appended DDL, yet the rewritten view-table DDL still contains it
twice — in two distinct comma-split tokens — so neither "occurs exactly
once" nor "every subsequent token containing the name is dropped" holds. -/
theorem repeated_default_name_survives_removal :
    getMigrations [c7UserMigration]
        = Except.ok [c7ViewsMigration, c7VersionsMigration, c7UniqueIndexMigration]
      ∧ countMatches (appendMigration c7UserMigration getRemainingStateViewsMigration)
          (lit "chain_id") > 1
      ∧ countMatches c7ViewsMigration (lit "chain_id") = 2
      ∧ (splitOnStr (lit ",") c7ViewsMigration).countP
          (fun t => containsStr t (lit "chain_id")) = 2 := by
  refine ⟨?_, ?_, ?_, ?_⟩
  · decide
  · decide
  · decide
  · decide

lemma lookupCount_map_zero (l : List Str) (g : Str) :
    lookupCount (l.map (fun f => (f, 0))) g = 0 := by
  induction l with
  | nil => rfl
  | cons x xs ih =>
    unfold lookupCount at ih ⊢
    rw [List.map_cons, List.find?_cons]
    by_cases hx : x = g
    · simp [hx]
    · have : ((x, 0).1 == g) = false := by simpa using hx
      rw [this]
      exact ih

lemma find?_filter_ne_key (counts : List (Str × Nat)) (g f : Str) (hne : f ≠ g) :
    (counts.filter (fun p => !(p.1 == g))).find? (fun p => p.1 == f)
      = counts.find? (fun p => p.1 == f) := by
  induction counts with
  | nil => rfl
  | cons c cs ih =>
    by_cases hcg : c.1 = g
    · have hkeep : (!(c.1 == g)) = false := by simpa using hcg
      have hcf : (c.1 == f) = false := by
        simp only [beq_eq_false_iff_ne]
        rw [hcg]
        exact fun h => hne h.symm
      rw [List.filter_cons, hkeep]
      simp only [Bool.false_eq_true, if_false]
      rw [ih, List.find?_cons, hcf]
    · have hkeep : (!(c.1 == g)) = true := by simpa using hcg
      rw [List.filter_cons, hkeep]
      simp only [if_true]
      rw [List.find?_cons, List.find?_cons]
      by_cases hcf : (c.1 == f) = true
      · rw [hcf]
      · rw [Bool.not_eq_true] at hcf
        rw [hcf, ih]

lemma lookupCount_updateCount (counts : List (Str × Nat)) (g f : Str) (n : Nat) :
    lookupCount (updateCount counts g n) f = if f = g then n else lookupCount counts f := by
  unfold lookupCount updateCount
  rw [List.find?_cons]
  by_cases hfg : f = g
  · have : ((g, n).1 == f) = true := by simpa using hfg.symm
    rw [this]
    simp [hfg]
  · have : ((g, n).1 == f) = false := by
      simp only [beq_eq_false_iff_ne]
      exact fun h => hfg h.symm
    rw [this, find?_filter_ne_key counts g f hfg]
    simp [hfg]

lemma find?_eq_some_of_unique_field {t f : Str} {repeating : List Str}
    (hf : f ∈ repeating) (hcf : containsStr t f)
    (huniq : ∀ g ∈ repeating, containsStr t g → g = f) :
    repeating.find? (fun g => containsStr t g) = some f := by
  induction repeating with
  | nil => exact absurd hf (List.not_mem_nil f)
  | cons g gs ih =>
    by_cases hg : containsStr t g
    · have hgf := huniq g (List.mem_cons_self ..) hg
      rw [List.find?_cons, hg]
      rw [hgf]
    · have hf' : f ∈ gs := by
        rcases List.mem_cons.mp hf with rfl | h
        · exact absurd hcf hg
        · exact h
      rw [List.find?_cons]
      rw [Bool.not_eq_true] at hg
      rw [hg]
      exact ih hf' (fun g' hg' => huniq g' (List.mem_cons_of_mem _ hg'))

lemma rroGo_countP {repeating : List Str} {f : Str} (hf : f ∈ repeating) :
    ∀ (toks : List Str) (counts : List (Str × Nat)),
      (∀ t ∈ toks, containsStr t f → ∀ g ∈ repeating, containsStr t g → g = f) →
      (∀ g, lookupCount counts g ≤ 1) →
      (rroGo repeating toks counts).countP (fun t => containsStr t f)
        = if lookupCount counts f = 1 then 0
          else min 1 (toks.countP (fun t => containsStr t f)) := by
  intro toks
  induction toks with
  | nil =>
    intro counts _ _
    by_cases hc : lookupCount counts f = 1 <;> simp [rroGo, hc]
  | cons t ts ih =>
    intro counts huniq hwf
    have huniq' : ∀ t' ∈ ts, containsStr t' f → ∀ g ∈ repeating, containsStr t' g → g = f :=
      fun t' ht' => huniq t' (List.mem_cons_of_mem _ ht')
    by_cases hcf : containsStr t f
    · have hfind : repeating.find? (fun g => containsStr t g) = some f :=
        find?_eq_some_of_unique_field hf hcf
          (fun g hg hcg => huniq t (List.mem_cons_self ..) hcf g hg hcg)
      by_cases hprev : lookupCount counts f = 1
      · rw [show rroGo repeating (t :: ts) counts = rroGo repeating ts counts from by
          simp [rroGo, hfind, hprev]]
        rw [ih counts huniq' hwf]
        simp [hprev]
      · have hprev0 : lookupCount counts f = 0 := by
          have := hwf f
          omega
      -- kept; the updated count at `f` becomes 1, silencing every later token
        rw [show rroGo repeating (t :: ts) counts
            = t :: rroGo repeating ts (updateCount counts f (lookupCount counts f + 1))
            from by simp [rroGo, hfind, hprev0]]
        have hwf' : ∀ g,
            lookupCount (updateCount counts f (lookupCount counts f + 1)) g ≤ 1 := by
          intro g
          rw [lookupCount_updateCount]
          by_cases hg : g = f
          · rw [if_pos hg, hprev0]
          · rw [if_neg hg]
            exact hwf g
        have hupd : lookupCount (updateCount counts f (lookupCount counts f + 1)) f = 1 := by
          rw [lookupCount_updateCount, if_pos rfl, hprev0]
        rw [List.countP_cons, List.countP_cons, ih _ huniq' hwf', hupd]
        simp [hcf, hprev]
    · rcases hfind : repeating.find? (fun g => containsStr t g) with _ | g
      · rw [show rroGo repeating (t :: ts) counts = t :: rroGo repeating ts counts from by
          simp [rroGo, hfind]]
        rw [Bool.not_eq_true] at hcf
        rw [List.countP_cons, List.countP_cons, hcf]
        simp only [Bool.false_eq_true, if_false, add_zero]
        exact ih counts huniq' hwf
      · have hgf : g ≠ f := by
          have hcg := List.find?_some hfind
          intro h
          rw [h] at hcg
          exact hcf hcg
        rw [Bool.not_eq_true] at hcf
        by_cases hprev : lookupCount counts g = 1
        · rw [show rroGo repeating (t :: ts) counts = rroGo repeating ts counts from by
            simp [rroGo, hfind, hprev]]
          rw [ih counts huniq' hwf, List.countP_cons, hcf]
          simp only [Bool.false_eq_true, if_false, add_zero]
        · rw [show rroGo repeating (t :: ts) counts
              = t :: rroGo repeating ts (updateCount counts g (lookupCount counts g + 1))
              from by simp [rroGo, hfind, hprev, bne_iff_ne]]
          have hwf' : ∀ g',
              lookupCount (updateCount counts g (lookupCount counts g + 1)) g' ≤ 1 := by
            intro g'
            rw [lookupCount_updateCount]
            by_cases hg' : g' = g
            · rw [if_pos hg']
              have := hwf g
              omega
            · rw [if_neg hg']
              exact hwf g'
          have hupd : lookupCount (updateCount counts g (lookupCount counts g + 1)) f
              = lookupCount counts f := by
            rw [lookupCount_updateCount, if_neg (fun h => hgf h.symm)]
          rw [List.countP_cons, hcf]
          simp only [Bool.false_eq_true, if_false, add_zero]
          rw [ih _ huniq' hwf', hupd, List.countP_cons, hcf]
          simp only [Bool.false_eq_true, if_false, add_zero]

/-- C7 (amended): duplicate removal charges each comma-split token to the
first repeating default column name (in declaration order) the token
contains, keeps the first token charged to a name and drops the later ones.
Whenever every comma-split token of the appended DDL contains at most one
default column name, a name occurring in more than one token is, after the
rewrite, contained in exactly one kept token. -/
theorem default_column_removal_keeps_first_charged_token
    (migration : Str)
    (htok : ∀ t ∈ splitOnStr (lit ",") migration, ∀ f ∈ defaultMigrationGetFields,
        containsStr t f → ∀ g ∈ defaultMigrationGetFields, containsStr t g → g = f) :
    ∀ f ∈ defaultMigrationGetFields, countMatches migration f > 1 →
      (removeRepeatingTokens migration).countP (fun t => containsStr t f)
        = min 1 ((splitOnStr (lit ",") migration).countP (fun t => containsStr t f)) := by
  intro f hfFields hrep
  have hfRepeating :
      f ∈ defaultMigrationGetFields.filter (fun g => countMatches migration g > 1) := by
    rw [List.mem_filter]
    exact ⟨hfFields, by simpa using hrep⟩
  have huniq : ∀ t ∈ splitOnStr (lit ",") migration, containsStr t f →
      ∀ g ∈ defaultMigrationGetFields.filter (fun g => countMatches migration g > 1),
        containsStr t g → g = f := by
    intro t ht hcf g hg hcg
    exact (htok t ht g (List.mem_of_mem_filter hg) hcg f hfFields hcf).symm
  have hwf : ∀ g,
      lookupCount
        ((defaultMigrationGetFields.filter
            (fun g => countMatches migration g > 1)).map (fun f => (f, 0))) g ≤ 1 := by
    intro g
    rw [lookupCount_map_zero]
    omega
  have huniq2 : ∀ t ∈ splitOnStr (lit ",") migration, containsStr t f →
      ∀ g ∈ defaultMigrationGetFields.filter (fun g => countMatches migration g > 1),
        containsStr t g → g = f := huniq
  have h := rroGo_countP hfRepeating (splitOnStr (lit ",") migration)
    ((defaultMigrationGetFields.filter
        (fun g => countMatches migration g > 1)).map (fun f => (f, 0)))
    (fun t ht hcf g hg hcg => huniq2 t ht hcf g hg hcg) hwf
  rw [lookupCount_map_zero] at h
  simp only [removeRepeatingTokens]
  rw [h]
  simp

/-- Concrete witness for C7 (amended): in the S1 appended view-table DDL,
every token holds at most one default name, `contract_address` occurs in two
tokens, and exactly one survives the rewrite. -/
theorem default_column_removal_keeps_first_charged_token_witness :
    (removeRepeatingTokens (appendMigration s1UserMigration0 getRemainingStateViewsMigration)).countP
        (fun t => containsStr t (lit "contract_address"))
      = min 1 ((splitOnStr (lit ",")
          (appendMigration s1UserMigration0 getRemainingStateViewsMigration)).countP
            (fun t => containsStr t (lit "contract_address"))) :=
  default_column_removal_keeps_first_charged_token
    (appendMigration s1UserMigration0 getRemainingStateViewsMigration)
    (by decide) (lit "contract_address") (by decide) (by decide)

end Chaindexing
